import Mathlib

/-!
Shallow embedding of `src/cybert_example_training_dns.ipynb` (raykallen/dns_parser).

Strings from the notebook are modelled as `List Char`; the per-token label
strings ("O", "B-col", "I-col", "[PAD]", "X") are Lean `String`s.  Python
operations are embedded as follows:

* `str.split()` (whitespace split, empty chunks dropped) is `pySplit`;
* `str.replace(sym, ' ' + sym + ' ')` for a one-character needle is
  `replaceChar`, and the preprocessing loop over `string.punctuation`
  is `punctuation_spliter` (cells 6 and 7 of the notebook compute the same
  transformation, so `labeler` below applies `punctuation_spliter` to the
  raw log to obtain the `raw_preprocess` column);
* Python list slicing `l[a:b]` is `pySlice`, and slice assignment
  `l[a:b] = xs` (for the `a ≤ b` shape used by the code) is `pySetSlice`;
* code that can raise (`sublist[0]` on an empty list, out-of-range
  indexing, a failing dict lookup) is embedded in `Option`, with `none`
  for the raised exception.

A dataframe row is a raw log (`List Char`) together with the list of
(column name, stringified cell value) pairs, in column order.
-/

set_option maxHeartbeats 1000000

namespace Cybert

/-- Python's `string.punctuation` constant (32 ASCII punctuation characters,
in their ASCII order). -/
def string.punctuation : List Char :=
  "!\"#$%&\x27()*+,-./:;<=>?@[\\]^_\x60\x7b|\x7d~".toList

/-- Python `text.replace(c, ' ' + c + ' ')` for a single-character needle:
every occurrence of `c` is replaced by `c` surrounded by single spaces. -/
def replaceChar (l : List Char) (c : Char) : List Char :=
  l.flatMap (fun ch => if ch = c then [' ', c, ' '] else [ch])

/-- Cell 7: `punctuation_spliter` surrounds every punctuation character with
spaces, processing the 32 punctuation symbols in order. -/
def punctuation_spliter (text : List Char) : List Char :=
  string.punctuation.foldl replaceChar text

/-- Split at every whitespace character, keeping (possibly empty) chunks:
the chunk structure underlying Python `str.split()`. -/
def splitP : List Char → List (List Char)
  | [] => [[]]
  | c :: cs =>
    if c.isWhitespace then [] :: splitP cs
    else
      match splitP cs with
      | [] => [[c]]
      | t :: ts => (c :: t) :: ts

/-- Python `str.split()` with no argument: whitespace chunks with the empty
chunks dropped. -/
def pySplit (l : List Char) : List (List Char) :=
  (splitP l).filter (fun t => !t.isEmpty)

/-- Python `l[a:b]` for `0 ≤ a, b` (out-of-range bounds clamp). -/
def pySlice (l : List α) (a b : Nat) : List α :=
  (l.drop a).take (b - a)

/-- Python slice assignment `l[a:b] = xs` for `0 ≤ a, b`:
`l[:a] + xs + l[max a b:]`. -/
def pySetSlice (l : List α) (a b : Nat) (xs : List α) : List α :=
  l.take a ++ xs ++ l.drop (max a b)

/-- The sentinel cell values skipped by `labeler`:
`{'', '-', 'None', 'NaN'}`. -/
def skipvals : List (List Char) := [[], ['-'], "None".toList, "NaN".toList]

/-- The condition checked by the inner loop of `labeler` at candidate index
`i`: the generator's filter `raw_split[i] == sublist[0]`, then
`raw_split[i:i+len] == sublist` and `label_list[i:i+len] == ['O']*len`. -/
def matchCond (raw_split : List (List Char)) (label_list : List String)
    (sublist : List (List Char)) (i : Nat) : Bool :=
  (raw_split.getD i [] == sublist.headD []) &&
  (pySlice raw_split i (i + sublist.length) == sublist) &&
  (pySlice label_list i (i + sublist.length) == List.replicate sublist.length "O")

/-- First index `j` with `i ≤ j < i + fuel` satisfying `p`.  Once the loop
body of `labeler` has fired, `match_count = 1` disables every later
iteration and `label_list` is unchanged before the first hit, so the loop
is exactly a first-match search against the incoming `label_list`. -/
def scanFirst (p : Nat → Bool) : Nat → Nat → Option Nat
  | _, 0 => none
  | i, fuel + 1 => if p i then some i else scanFirst p (i + 1) fuel

/-- The index written by `labeler` for one column, if any: the first
candidate index in `range(len(raw_split))` passing `matchCond`. -/
def firstMatch (raw_split : List (List Char)) (label_list : List String)
    (sublist : List (List Char)) : Option Nat :=
  scanFirst (matchCond raw_split label_list sublist) 0 raw_split.length

/-- The two assignments of the loop body:
`label_list[ind] = 'B-'+col` and
`label_list[ind+1:ind+n] = ['I-'+col] * (n-1)`. -/
def writeLabels (label_list : List String) (col : String) (ind n : Nat) :
    List String :=
  pySetSlice (label_list.set ind ("B-" ++ col)) (ind + 1) (ind + n)
    (List.replicate (n - 1) ("I-" ++ col))

/-- One iteration of `labeler`'s `for col in cols` loop, on the pair
(column name, stringified cell value).  `none` models the `IndexError`
raised by `sublist[0]` when the split column value is empty while
`raw_split` is not (the generator's filter is evaluated once per raw
token, so with no raw tokens nothing is raised). -/
def processCol (raw_split : List (List Char)) (label_list : List String)
    (cv : String × List Char) : Option (List String) :=
  if cv.2 ∈ skipvals then some label_list
  else if pySplit (punctuation_spliter cv.2) = [] then
    (if raw_split = [] then some label_list else none)
  else
    match firstMatch raw_split label_list (pySplit (punctuation_spliter cv.2)) with
    | none => some label_list
    | some ind =>
      some (writeLabels label_list cv.1 ind
        (pySplit (punctuation_spliter cv.2)).length)

/-- The whole `for col in cols` loop of `labeler`. -/
def runCols (raw_split : List (List Char)) :
    List String → List (String × List Char) → Option (List String)
  | ll, [] => some ll
  | ll, cv :: ps =>
    match processCol raw_split ll cv with
    | none => none
    | some ll1 => runCols raw_split ll1 ps

/-- Cell 8: `labeler` for one dataframe row.  `raw` is the row's raw log;
`pairs` lists the parsed columns as (name, stringified value), in the order
of the `cols` list.  `raw_preprocess` is recomputed from `raw` by
`punctuation_spliter` (cell 6 applies the identical replacement loop). -/
def labeler (raw : List Char) (pairs : List (String × List Char)) :
    Option (List String) :=
  let raw_split := pySplit (punctuation_spliter raw)
  runCols raw_split (List.replicate raw_split.length "O") pairs

/-- The body of `subword_labeler` for one (log, tags) pair, given the
per-word subword-piece counts reported by the tokenizer
(`metadata[:,2]`).  For each tag in order the loop appends the tag
and then `count[i]` copies of `'X'` (Python `'X' * k` is a string of `k`
characters, and `extend` appends them one by one).  Indexing
`subword_counts[i]` past the end of `counts` raises, modelled by `none`. -/
def subword_tags (tags : List String) (counts : List Nat) :
    Option (List String) :=
  if tags.length ≤ counts.length then
    some (((tags.zip counts).map
      (fun tc => tc.1 :: List.replicate tc.2 "X")).flatten)
  else none

/-- Cell 11: `subword_labeler`.  The tokenizer is abstracted as the function
`cnt` from the whitespace-split words of a log to the reported subword-piece
count of each word.  `zip` truncates to the shorter list exactly as
Python's `zip(log_list, label_list)` does. -/
def subword_labeler (cnt : List (List Char) → List Nat)
    (log_list : List (List Char)) (label_list : List (List String)) :
    Option (List (List String)) :=
  (log_list.zip label_list).mapM
    (fun p => subword_tags p.2 (cnt (pySplit p.1)))

/-- Cell 15: `pad(l, content, width)` extends `l` with
`(width - len(l))` copies of `content` (no copies when `len(l) ≥ width`,
since Python `[content] * k` is empty for `k ≤ 0`). -/
def pad (l : List String) (content : String) (width : Nat) : List String :=
  l ++ List.replicate (width - l.length) content

/-- Cell 16: `padded_labels = [pad(x[:512], '[PAD]', 512) for x in
subword_labels]`. -/
def padded_labels (subword_labels : List (List String)) :
    List (List String) :=
  subword_labels.map (fun x => pad (x.take 512) "[PAD]" 512)

/-- Cell 16: `int_labels = [[label2id.get(l) for l in lab] for lab in
padded_labels]`, with the label-to-id map abstracted as `f`
(Python `dict.get` returns `None` on a missing key, hence `Option Int`). -/
def int_labels (f : String → Option Int)
    (subword_labels : List (List String)) : List (List (Option Int)) :=
  (padded_labels subword_labels).map (fun lab => lab.map f)

/-- Python `enumerate` starting at `i`. -/
def pyEnumFrom : Nat → List α → List (Nat × α)
  | _, [] => []
  | i, a :: as => (i, a) :: pyEnumFrom (i + 1) as

/-- Python `enumerate`. -/
def pyEnum (l : List α) : List (Nat × α) := pyEnumFrom 0 l

/-- Lookup in a Python dict built by inserting the given (key, value)
pairs in order: the value of the last insertion for the key wins. -/
def pyLookup [BEq κ] (kvs : List (κ × ν)) (k : κ) : Option ν :=
  (kvs.reverse.find? (fun p => p.1 == k)).map Prod.snd

/-- The keys of a Python dict built by inserting the given pairs in order:
each distinct key once, in the order of its first insertion. -/
def pyKeys [BEq κ] : List (κ × ν) → List κ
  | [] => []
  | p :: ps => p.1 :: (pyKeys ps).filter (fun k => !(k == p.1))

/-- Cell 14: the insertions building `label2id`:
`{t: i for i, t in enumerate(label_values)}` after
`label_values[:0] = ['[PAD]']`, then `label2id.update({'X': -100})`.
`lv` is the deduplicated list of training labels (`list(set(...))`). -/
def label2id_entries (lv : List String) : List (String × Int) :=
  (pyEnum ("[PAD]" :: lv)).map (fun p => (p.2, (p.1 : Int))) ++ [("X", -100)]

/-- Cell 14: `label2id` as a lookup function. -/
def label2id (lv : List String) : String → Option Int :=
  pyLookup (label2id_entries lv)

/-- Cell 29: the insertions building
`id2label = {label2id[key]: key for key in label2id.keys()}`.
`label2id[key]` never fails for a key of the dict, so the `filterMap`
drops nothing. -/
def id2label_entries (lv : List String) : List (Int × String) :=
  (pyKeys (label2id_entries lv)).filterMap
    (fun k => (label2id lv k).map (fun i => (i, k)))

/-- Cell 29: `id2label` as a lookup function. -/
def id2label (lv : List String) : Int → Option String :=
  pyLookup (id2label_entries lv)

/-- The body run for one nonzero mask entry of the evaluation loop: look
up the ground-truth label `d l`; if it is `'X'` or `'[PAD]'` skip the
position, otherwise look up the predicted label `d p` and prepend the
(ground truth, prediction) pair to the rest of the collected sequences.
`d` is the `id2label` map; a missing key raises (`none`). -/
def evalStep (d : Int → Option String) (l p : Int)
    (rest : Option (List String × List String)) :
    Option (List String × List String) :=
  (d l).bind (fun tl =>
    if tl ≠ "X" ∧ tl ≠ "[PAD]" then
      (d p).bind (fun tp => rest.map (fun r => (tl :: r.1, tp :: r.2)))
    else rest)

/-- Cell 29, inner evaluation loop for one validation example: iterate the
attention-mask entries in order; a zero mask entry breaks out of the loop
(`temp_1`, `temp_2` collected so far are kept); a nonzero entry runs
`evalStep`.  Indexing `label_ids[i][j]` or `logits[i][j]` past the end of
the rows raises, modelled by `none` (reachable only when the mask is
longer than the label rows). -/
def evalCollect (d : Int → Option String) :
    List Nat → List Int → List Int → Option (List String × List String)
  | [], _, _ => some ([], [])
  | m :: ms, ls, ps =>
    if m = 0 then some ([], [])
    else
      match ls, ps with
      | l :: ls2, p :: ps2 => evalStep d l p (evalCollect d ms ls2 ps2)
      | _, _ => none

/-! ### Label-string discrimination facts -/

theorem B_data (c : String) : ("B-" ++ c).data = 'B' :: '-' :: c.data := by
  rw [String.data_append]; rfl

theorem I_data (c : String) : ("I-" ++ c).data = 'I' :: '-' :: c.data := by
  rw [String.data_append]; rfl

theorem B_ne_O (c : String) : "B-" ++ c ≠ "O" := by
  intro h
  have h2 : ("B-" ++ c).data = "O".data := by rw [h]
  rw [B_data] at h2
  simp at h2

theorem I_ne_O (c : String) : "I-" ++ c ≠ "O" := by
  intro h
  have h2 : ("I-" ++ c).data = "O".data := by rw [h]
  rw [I_data] at h2
  simp at h2

theorem B_ne_I (a b : String) : "B-" ++ a ≠ "I-" ++ b := by
  intro h
  have h2 : ("B-" ++ a).data = ("I-" ++ b).data := by rw [h]
  rw [B_data, I_data] at h2
  simp at h2

theorem B_inj {a b : String} (h : "B-" ++ a = "B-" ++ b) : a = b := by
  have h2 : ("B-" ++ a).data = ("B-" ++ b).data := by rw [h]
  rw [B_data, B_data] at h2
  simp at h2
  exact String.ext h2

theorem I_inj {a b : String} (h : "I-" ++ a = "I-" ++ b) : a = b := by
  have h2 : ("I-" ++ a).data = ("I-" ++ b).data := by rw [h]
  rw [I_data, I_data] at h2
  simp at h2
  exact String.ext h2

/-! ### Slice lemmas -/

theorem pySlice_getElem? (l : List α) (a n i : Nat) (hi : i < n) :
    (pySlice l a (a + n))[i]? = l[a + i]? := by
  unfold pySlice
  rw [Nat.add_sub_cancel_left]
  rw [List.getElem?_take, if_pos hi, List.getElem?_drop]

theorem pySlice_length_le (l : List α) (a n : Nat) :
    (pySlice l a (a + n)).length ≤ n := by
  unfold pySlice
  rw [Nat.add_sub_cancel_left]
  exact (List.length_take _ _).trans_le (Nat.min_le_left _ _)

theorem pySlice_full_bound {l : List α} {a n : Nat} {s : List α}
    (h : pySlice l a (a + n) = s) (hs : s.length = n) (hn : 0 < n) :
    a + n ≤ l.length := by
  unfold pySlice at h
  rw [Nat.add_sub_cancel_left] at h
  have hlen : (List.take n (List.drop a l)).length = n := by rw [h, hs]
  rw [List.length_take, List.length_drop] at hlen
  omega

/-- If the slice `l[a : a+n]` equals `replicate n x`, every position in
`[a, a+n)` holds `x`. -/
theorem pySlice_replicate_elems {l : List α} {a n : Nat} {x : α}
    (h : pySlice l a (a + n) = List.replicate n x) :
    ∀ j, a ≤ j → j < a + n → l[j]? = some x := by
  intro j hj1 hj2
  have hi : j - a < n := by omega
  have := pySlice_getElem? l a n (j - a) hi
  rw [h] at this
  rw [List.getElem?_replicate, if_pos hi] at this
  rw [show j = a + (j - a) by omega]
  exact this.symm

/-- Decomposition of `l` around an all-`x` slice. -/
theorem eq_take_append_replicate {l : List α} {a n : Nat} {x : α}
    (h : pySlice l a (a + n) = List.replicate n x) :
    l = l.take a ++ List.replicate n x ++ l.drop (a + n) := by
  unfold pySlice at h
  rw [Nat.add_sub_cancel_left] at h
  conv_lhs => rw [← List.take_append_drop a l]
  rw [List.append_assoc]
  congr 1
  conv_lhs => rw [← List.take_append_drop n (List.drop a l)]
  rw [h, List.drop_drop]

/-! ### First-match search -/

theorem scanFirst_some {p : Nat → Bool} :
    ∀ fuel i j, scanFirst p i fuel = some j →
      i ≤ j ∧ j < i + fuel ∧ p j = true ∧ ∀ k, i ≤ k → k < j → p k = false := by
  intro fuel
  induction fuel with
  | zero => intro i j h; simp [scanFirst] at h
  | succ f ih =>
    intro i j h
    unfold scanFirst at h
    by_cases hp : p i
    · rw [if_pos hp] at h
      obtain rfl : i = j := by simpa using h
      exact ⟨le_refl _, by omega, hp, fun k hk1 hk2 => absurd (le_trans hk1 (Nat.le_of_lt_succ (Nat.lt_succ_of_lt hk2))) (by omega)⟩
    · rw [if_neg hp] at h
      obtain ⟨h1, h2, h3, h4⟩ := ih (i + 1) j h
      refine ⟨by omega, by omega, h3, ?_⟩
      intro k hk1 hk2
      rcases Nat.eq_or_lt_of_le hk1 with rfl | hlt
      · exact Bool.eq_false_iff.mpr hp
      · exact h4 k hlt hk2

theorem scanFirst_none {p : Nat → Bool} :
    ∀ fuel i, scanFirst p i fuel = none →
      ∀ k, i ≤ k → k < i + fuel → p k = false := by
  intro fuel
  induction fuel with
  | zero => intro i _ k h1 h2; omega
  | succ f ih =>
    intro i h k hk1 hk2
    unfold scanFirst at h
    by_cases hp : p i
    · rw [if_pos hp] at h; exact absurd h (by simp)
    · rw [if_neg hp] at h
      rcases Nat.eq_or_lt_of_le hk1 with rfl | hlt
      · exact Bool.eq_false_iff.mpr hp
      · exact ih (i + 1) h k hlt (by omega)

/-! ### Structure of the label write -/

theorem writeLabels_eq {ll : List String} {ind n : Nat} (col : String)
    (hn : 0 < n) (hb : ind + n ≤ ll.length) :
    writeLabels ll col ind n =
      ll.take ind ++ ("B-" ++ col) ::
        (List.replicate (n - 1) ("I-" ++ col) ++ ll.drop (ind + n)) := by
  have hind : ind < ll.length := by omega
  unfold writeLabels pySetSlice
  rw [List.set_eq_take_append_cons_drop, if_pos hind]
  rw [Nat.max_eq_right (by omega : ind + 1 ≤ ind + n)]
  rw [List.take_append_eq_append_take, List.drop_append_eq_append_drop]
  rw [List.length_take]
  have hmin : min ind ll.length = ind := by omega
  rw [hmin]
  rw [List.take_take]
  have e1 : (ind + 1) ⊓ ind = ind := by omega
  have e2 : ind + 1 - ind = 1 := by omega
  have e3 : ind + n - ind = n := by omega
  rw [e1, e2, e3]
  have e0 : List.drop (ind + n) (List.take ind ll) = [] :=
    List.drop_eq_nil_of_le (by rw [List.length_take]; omega)
  rw [e0]
  have e4 : List.drop n (("B-" ++ col) :: List.drop (ind + 1) ll) =
      List.drop (ind + n) ll := by
    cases n with
    | zero => omega
    | succ m =>
      rw [List.drop_succ_cons, List.drop_drop]
      congr 1
      omega
  have e5 : List.take 1 (("B-" ++ col) :: List.drop (ind + 1) ll) =
      [("B-" ++ col)] := rfl
  rw [e4, e5]
  simp

theorem writeLabels_length {ll : List String} {ind n : Nat} (col : String)
    (hn : 0 < n) (hb : ind + n ≤ ll.length) :
    (writeLabels ll col ind n).length = ll.length := by
  rw [writeLabels_eq col hn hb]
  simp
  omega

theorem writeLabels_getElem?_lt {ll : List String} {ind n i : Nat}
    (col : String) (hn : 0 < n) (hb : ind + n ≤ ll.length) (hi : i < ind) :
    (writeLabels ll col ind n)[i]? = ll[i]? := by
  rw [writeLabels_eq col hn hb]
  rw [List.getElem?_append, List.length_take, if_pos (by omega)]
  simp [List.getElem?_take, hi]

theorem writeLabels_getElem?_self {ll : List String} {ind n : Nat}
    (col : String) (hn : 0 < n) (hb : ind + n ≤ ll.length) :
    (writeLabels ll col ind n)[ind]? = some ("B-" ++ col) := by
  rw [writeLabels_eq col hn hb]
  rw [List.getElem?_append_right (by rw [List.length_take]; omega)]
  rw [List.length_take]
  have : ind - min ind ll.length = 0 := by omega
  rw [this]
  rw [List.getElem?_cons_zero]

theorem writeLabels_getElem?_mid {ll : List String} {ind n i : Nat}
    (col : String) (hn : 0 < n) (hb : ind + n ≤ ll.length)
    (h1 : ind < i) (h2 : i < ind + n) :
    (writeLabels ll col ind n)[i]? = some ("I-" ++ col) := by
  rw [writeLabels_eq col hn hb]
  rw [List.getElem?_append_right (by rw [List.length_take]; omega)]
  rw [List.length_take]
  have e : i - min ind ll.length = (i - ind - 1) + 1 := by omega
  rw [e, List.getElem?_cons_succ]
  rw [List.getElem?_append, List.length_replicate, if_pos (by omega)]
  rw [List.getElem?_replicate, if_pos (by omega)]

theorem writeLabels_getElem?_ge {ll : List String} {ind n i : Nat}
    (col : String) (hn : 0 < n) (hb : ind + n ≤ ll.length)
    (hi : ind + n ≤ i) :
    (writeLabels ll col ind n)[i]? = ll[i]? := by
  rw [writeLabels_eq col hn hb]
  rw [List.getElem?_append_right (by rw [List.length_take]; omega)]
  rw [List.length_take]
  have e : i - min ind ll.length = (i - ind - 1) + 1 := by omega
  rw [e, List.getElem?_cons_succ]
  rw [List.getElem?_append_right (by rw [List.length_replicate]; omega)]
  rw [List.length_replicate, List.getElem?_drop]
  congr 1
  omega

/-! ### One column step -/

theorem firstMatch_some {raw_split : List (List Char)} {ll : List String}
    {sub : List (List Char)} {ind : Nat}
    (h : firstMatch raw_split ll sub = some ind) (hne : sub ≠ []) :
    pySlice raw_split ind (ind + sub.length) = sub ∧
    pySlice ll ind (ind + sub.length) = List.replicate sub.length "O" ∧
    ind + sub.length ≤ raw_split.length ∧ ind + sub.length ≤ ll.length ∧
    0 < sub.length ∧
    ∀ j, j < ind → matchCond raw_split ll sub j = false := by
  have hn : 0 < sub.length := List.length_pos.mpr hne
  obtain ⟨-, -, hc, hmin⟩ := scanFirst_some raw_split.length 0 ind h
  have hc2 := hc
  simp only [matchCond, Bool.and_eq_true, beq_iff_eq] at hc2
  obtain ⟨⟨-, hraw⟩, hlab⟩ := hc2
  refine ⟨hraw, hlab, ?_, ?_, hn, fun j hj => hmin j (Nat.zero_le j) hj⟩
  · exact pySlice_full_bound hraw rfl hn
  · exact pySlice_full_bound hlab (List.length_replicate _ _) hn

theorem processCol_cases {raw_split : List (List Char)} {ll ll' : List String}
    {cv : String × List Char}
    (h : processCol raw_split ll cv = some ll') :
    ll' = ll ∨
    ∃ ind, cv.2 ∉ skipvals ∧ pySplit (punctuation_spliter cv.2) ≠ [] ∧
      firstMatch raw_split ll (pySplit (punctuation_spliter cv.2)) = some ind ∧
      ll' = writeLabels ll cv.1 ind (pySplit (punctuation_spliter cv.2)).length := by
  unfold processCol at h
  by_cases hskip : cv.2 ∈ skipvals
  · rw [if_pos hskip] at h
    exact Or.inl (Option.some.inj h).symm
  · rw [if_neg hskip] at h
    by_cases hsub : pySplit (punctuation_spliter cv.2) = []
    · rw [if_pos hsub] at h
      by_cases hraw : raw_split = []
      · rw [if_pos hraw] at h
        exact Or.inl (Option.some.inj h).symm
      · rw [if_neg hraw] at h
        exact absurd h (by simp)
    · rw [if_neg hsub] at h
      cases hfm : firstMatch raw_split ll (pySplit (punctuation_spliter cv.2)) with
      | none =>
        rw [hfm] at h
        exact Or.inl (Option.some.inj h).symm
      | some ind =>
        rw [hfm] at h
        exact Or.inr ⟨ind, hskip, hsub, rfl, (Option.some.inj h).symm⟩

theorem processCol_length {raw_split : List (List Char)} {ll ll' : List String}
    {cv : String × List Char}
    (h : processCol raw_split ll cv = some ll') : ll'.length = ll.length := by
  rcases processCol_cases h with rfl | ⟨ind, -, hne, hfm, rfl⟩
  · rfl
  · obtain ⟨-, hlab, -, hb, hn, -⟩ := firstMatch_some hfm hne
    exact writeLabels_length cv.1 hn hb

/-- The loop body only ever writes positions currently labeled `'O'`:
a non-`'O'` label survives any later column. -/
theorem processCol_preserve {raw_split : List (List Char)}
    {ll ll' : List String} {cv : String × List Char}
    (h : processCol raw_split ll cv = some ll') :
    ∀ (i : Nat) (s : String), ll[i]? = some s → s ≠ "O" → ll'[i]? = some s := by
  intro i s hi hs
  rcases processCol_cases h with rfl | ⟨ind, -, hne, hfm, rfl⟩
  · exact hi
  · obtain ⟨-, hlab, -, hb, hn, -⟩ := firstMatch_some hfm hne
    rcases Nat.lt_or_ge i ind with hlt | hge1
    · rw [writeLabels_getElem?_lt cv.1 hn hb hlt]; exact hi
    · rcases Nat.lt_or_ge i (ind + (pySplit (punctuation_spliter cv.2)).length)
        with hmid | hge
      · have : ll[i]? = some "O" := pySlice_replicate_elems hlab i hge1 hmid
        rw [hi] at this
        exact absurd (Option.some.inj this) hs
      · rw [writeLabels_getElem?_ge cv.1 hn hb hge]; exact hi

/-! ### The whole column loop -/

theorem runCols_length {raw_split : List (List Char)} :
    ∀ {ps : List (String × List Char)} {ll ll' : List String},
      runCols raw_split ll ps = some ll' → ll'.length = ll.length := by
  intro ps
  induction ps with
  | nil => intro ll ll' h; rw [(Option.some.inj h).symm]
  | cons cv ps ih =>
    intro ll ll' h
    unfold runCols at h
    cases hstep : processCol raw_split ll cv with
    | none => rw [hstep] at h; exact absurd h (by simp)
    | some ll1 =>
      rw [hstep] at h
      exact (ih h).trans (processCol_length hstep)

theorem runCols_cons (raw_split : List (List Char)) (ll : List String)
    (cv : String × List Char) (ps : List (String × List Char)) :
    runCols raw_split ll (cv :: ps) =
      match processCol raw_split ll cv with
      | none => none
      | some ll1 => runCols raw_split ll1 ps := rfl

theorem runCols_append {raw_split : List (List Char)}
    (ps1 ps2 : List (String × List Char)) :
    ∀ ll : List String,
      runCols raw_split ll (ps1 ++ ps2) =
        (runCols raw_split ll ps1).bind
          (fun ll1 => runCols raw_split ll1 ps2) := by
  induction ps1 with
  | nil => intro ll; rfl
  | cons cv ps ih =>
    intro ll
    rw [List.cons_append, runCols_cons, runCols_cons]
    cases hstep : processCol raw_split ll cv with
    | none => rfl
    | some ll1 =>
      show runCols raw_split ll1 (ps ++ ps2) =
        (runCols raw_split ll1 ps).bind (fun m => runCols raw_split m ps2)
      exact ih ll1

theorem runCols_preserve {raw_split : List (List Char)} :
    ∀ {ps : List (String × List Char)} {ll ll' : List String},
      runCols raw_split ll ps = some ll' →
      ∀ (i : Nat) (s : String), ll[i]? = some s → s ≠ "O" →
        ll'[i]? = some s := by
  intro ps
  induction ps with
  | nil => intro ll ll' h i s hi _; rw [(Option.some.inj h).symm]; exact hi
  | cons cv ps ih =>
    intro ll ll' h i s hi hs
    unfold runCols at h
    cases hstep : processCol raw_split ll cv with
    | none => rw [hstep] at h; exact absurd h (by simp)
    | some ll1 =>
      rw [hstep] at h
      exact ih h i s (processCol_preserve hstep i s hi hs) hs

/-- Provenance of every non-`'O'` label in the output of the column loop:
it either was already there, or it belongs to the contiguous span written
for one of the processed columns, a span whose raw-token slice matches the
split column value and which reads `B, I, I, ...` in the final output. -/
theorem runCols_provenance {raw_split : List (List Char)} :
    ∀ {ps : List (String × List Char)} {ll ll' : List String},
      runCols raw_split ll ps = some ll' →
      ∀ (i : Nat) (s : String), ll'[i]? = some s → s ≠ "O" →
        ll[i]? = some s ∨
        ∃ col v ind, (col, v) ∈ ps ∧ v ∉ skipvals ∧
          pySplit (punctuation_spliter v) ≠ [] ∧
          pySlice raw_split ind (ind + (pySplit (punctuation_spliter v)).length)
            = pySplit (punctuation_spliter v) ∧
          ind ≤ i ∧ i < ind + (pySplit (punctuation_spliter v)).length ∧
          ll'[ind]? = some ("B-" ++ col) ∧
          (∀ j, ind < j → j < ind + (pySplit (punctuation_spliter v)).length →
            ll'[j]? = some ("I-" ++ col)) := by
  intro ps
  induction ps with
  | nil =>
    intro ll ll' h i s hi _
    rw [(Option.some.inj h).symm] at hi
    exact Or.inl hi
  | cons cv ps ih =>
    intro ll ll' h i s hi hs
    obtain ⟨col, v⟩ := cv
    unfold runCols at h
    cases hstep : processCol raw_split ll (col, v) with
    | none => rw [hstep] at h; exact absurd h (by simp)
    | some ll1 =>
      rw [hstep] at h
      rcases ih h i s hi hs with h1 | ⟨c, w, ind, hmem, h2⟩
      · -- the label was already present after this column's step
        rcases processCol_cases hstep with rfl | ⟨ind, hskip, hne, hfm, rfl⟩
        · exact Or.inl h1
        · obtain ⟨hraw, hlab, hbr, hb, hn, -⟩ := firstMatch_some hfm hne
          rcases Nat.lt_or_ge i ind with hlt | hge1
          · rw [writeLabels_getElem?_lt col hn hb hlt] at h1
            exact Or.inl h1
          · rcases Nat.lt_or_ge i
              (ind + (pySplit (punctuation_spliter v)).length) with hmid | hge
            · -- the step wrote position i: produce the span
              refine Or.inr ⟨col, v, ind, List.mem_cons_self _ _, hskip, hne,
                hraw, hge1, hmid, ?_, ?_⟩
              · exact runCols_preserve h ind _
                  (writeLabels_getElem?_self col hn hb) (B_ne_O col)
              · intro j hj1 hj2
                exact runCols_preserve h j _
                  (writeLabels_getElem?_mid col hn hb hj1 hj2) (I_ne_O col)
            · rw [writeLabels_getElem?_ge col hn hb hge] at h1
              exact Or.inl h1
      · exact Or.inr ⟨c, w, ind, List.mem_cons_of_mem _ hmem, h2⟩

/-! ### Helpers about `labeler` -/

theorem labeler_eq (raw : List Char) (pairs : List (String × List Char)) :
    labeler raw pairs =
      runCols (pySplit (punctuation_spliter raw))
        (List.replicate (pySplit (punctuation_spliter raw)).length "O")
        pairs := rfl

theorem labeler_bind {raw : List Char} {pre rest : List (String × List Char)}
    {ll : List String} (h : labeler raw (pre ++ rest) = some ll) :
    ∃ mid, labeler raw pre = some mid ∧
      runCols (pySplit (punctuation_spliter raw)) mid rest = some ll := by
  rw [labeler_eq, runCols_append] at h
  cases hp : runCols (pySplit (punctuation_spliter raw))
      (List.replicate (pySplit (punctuation_spliter raw)).length "O") pre with
  | none => rw [hp] at h; exact absurd h (by simp)
  | some mid =>
    rw [hp] at h
    exact ⟨mid, by rw [labeler_eq]; exact hp, h⟩

theorem replicate_O_at {k i : Nat} {s : String}
    (h : (List.replicate k ("O" : String))[i]? = some s) : s = "O" := by
  rw [List.getElem?_replicate] at h
  by_cases hik : i < k
  · rw [if_pos hik] at h
    exact (Option.some.inj h).symm
  · rw [if_neg hik] at h
    exact absurd h (by simp)

/-- Inside the span `[ind, ind + n)` of a `B, I, I, ...` block, a position
holds the `B` label exactly at `ind` and the `I` label elsewhere. -/
theorem span_cases {ll : List String} {c : String} {ind n i : Nat} {s : String}
    (hB : ll[ind]? = some ("B-" ++ c))
    (hI : ∀ j, ind < j → j < ind + n → ll[j]? = some ("I-" ++ c))
    (hge : ind ≤ i) (hlt : i < ind + n) (hi : ll[i]? = some s) :
    (i = ind ∧ s = "B-" ++ c) ∨ (ind < i ∧ s = "I-" ++ c) := by
  rcases Nat.eq_or_lt_of_le hge with rfl | hgt
  · rw [hi] at hB
    exact Or.inl ⟨rfl, Option.some.inj hB⟩
  · have := hI i hgt hlt
    rw [hi] at this
    exact Or.inr ⟨hgt, Option.some.inj this⟩

theorem pair_unique {pairs : List (String × List Char)}
    (hnd : (pairs.map Prod.fst).Nodup) {col : String} {a b : List Char}
    (ha : (col, a) ∈ pairs) (hb : (col, b) ∈ pairs) : a = b := by
  induction pairs with
  | nil => cases ha
  | cons p ps ih =>
    rw [List.map_cons, List.nodup_cons] at hnd
    rcases List.mem_cons.mp ha with rfl | ha2
    · rcases List.mem_cons.mp hb with h | hb2
      · exact (congrArg Prod.snd h).symm
      · exact absurd (List.mem_map_of_mem Prod.fst hb2) hnd.1
    · rcases List.mem_cons.mp hb with rfl | hb2
      · exact absurd (List.mem_map_of_mem Prod.fst ha2) hnd.1
      · exact ih hnd.2 ha2 hb2

theorem nodup_split {pre post : List (String × List Char)}
    {col : String} {v : List Char}
    (hnd : ((pre ++ (col, v) :: post).map Prod.fst).Nodup) :
    col ∉ pre.map Prod.fst ∧ col ∉ post.map Prod.fst := by
  rw [List.map_append, List.map_cons, List.nodup_append] at hnd
  obtain ⟨-, h2, h3⟩ := hnd
  rw [List.nodup_cons] at h2
  exact ⟨fun hc => h3 hc (List.mem_cons_self _ _), h2.1⟩

/-- If no processed column is named `col`, the loop introduces no
`'B-'+col` label. -/
theorem Bcol_source {raw_split : List (List Char)}
    {ps : List (String × List Char)} {ll ll' : List String} {col : String}
    (h : runCols raw_split ll ps = some ll')
    (hcol : col ∉ ps.map Prod.fst) :
    ∀ i : Nat, ll'[i]? = some ("B-" ++ col) → ll[i]? = some ("B-" ++ col) := by
  intro i hi
  rcases runCols_provenance h i _ hi (B_ne_O col) with h1 | ⟨c, w, ind, hm, -, -, -, hge, hlt, hB, hI⟩
  · exact h1
  · rcases span_cases hB hI hge hlt hi with ⟨rfl, hs⟩ | ⟨-, hs⟩
    · obtain rfl := B_inj hs
      exact absurd (List.mem_map_of_mem Prod.fst hm) hcol
    · exact absurd hs (B_ne_I col c)

/-- A run of `labeler` over columns none of which is named `col` yields no
`'B-'+col` label at all. -/
theorem labeler_no_B {raw : List Char} {ps : List (String × List Char)}
    {ll : List String} {col : String}
    (h : labeler raw ps = some ll) (hcol : col ∉ ps.map Prod.fst) :
    ∀ i : Nat, ll[i]? ≠ some ("B-" ++ col) := by
  intro i hi
  rw [labeler_eq] at h
  have := Bcol_source h hcol i hi
  exact B_ne_O col (replicate_O_at this)

theorem getD_of_getElem? {l : List (List Char)} {i : Nat} {x : List Char}
    (h : l[i]? = some x) : l.getD i [] = x := by
  rw [List.getD_eq_getElem?_getD, h]
  rfl

theorem slice_head {raw_split sub : List (List Char)} {j : Nat}
    (hne : sub ≠ [])
    (h : pySlice raw_split j (j + sub.length) = sub) :
    raw_split.getD j [] = sub.headD [] := by
  have hn : 0 < sub.length := List.length_pos.mpr hne
  have h0 := pySlice_getElem? raw_split j sub.length 0 hn
  rw [h, Nat.add_zero] at h0
  cases sub with
  | nil => exact absurd rfl hne
  | cons s0 rest =>
    rw [List.getElem?_cons_zero] at h0
    rw [getD_of_getElem? h0.symm]
    rfl

/-- Where a final `'B-'+col` label can sit when exactly one column is named
`col`: at the index selected by `firstMatch` when that column was
processed, on the label state left by the preceding columns. -/
theorem B_at_write {raw : List Char} {pre post : List (String × List Char)}
    {col : String} {w : List Char} {ll llpre : List String} {i : Nat}
    (hpre : col ∉ pre.map Prod.fst) (hpost : col ∉ post.map Prod.fst)
    (hrun : labeler raw (pre ++ (col, w) :: post) = some ll)
    (hllpre : labeler raw pre = some llpre)
    (hi : ll[i]? = some ("B-" ++ col)) :
    w ∉ skipvals ∧ pySplit (punctuation_spliter w) ≠ [] ∧
    firstMatch (pySplit (punctuation_spliter raw)) llpre
      (pySplit (punctuation_spliter w)) = some i := by
  obtain ⟨mid, hmid, hrest⟩ := labeler_bind hrun
  obtain rfl : llpre = mid := by
    rw [hllpre] at hmid
    exact Option.some.inj hmid
  rw [runCols_cons] at hrest
  cases hstep : processCol (pySplit (punctuation_spliter raw)) llpre (col, w) with
  | none => rw [hstep] at hrest; exact absurd hrest (by simp)
  | some ll1 =>
    rw [hstep] at hrest
    have hll1 : ll1[i]? = some ("B-" ++ col) := Bcol_source hrest hpost i hi
    have hnopre : llpre[i]? ≠ some ("B-" ++ col) := labeler_no_B hllpre hpre i
    rcases processCol_cases hstep with rfl | ⟨ind, hskip, hne, hfm, rfl⟩
    · exact absurd hll1 hnopre
    · obtain ⟨-, hlab, -, hb, hn, -⟩ := firstMatch_some hfm hne
      rcases Nat.lt_or_ge i ind with hlt | hge1
      · rw [writeLabels_getElem?_lt col hn hb hlt] at hll1
        exact absurd hll1 (labeler_no_B hllpre hpre i)
      · rcases Nat.lt_or_ge i
          (ind + (pySplit (punctuation_spliter w)).length) with hmid2 | hge
        · rcases Nat.eq_or_lt_of_le hge1 with rfl | hgt
          · exact ⟨hskip, hne, hfm⟩
          · rw [writeLabels_getElem?_mid col hn hb hgt hmid2] at hll1
            exact absurd (Option.some.inj hll1) (B_ne_I col col).symm
        · rw [writeLabels_getElem?_ge col hn hb hge] at hll1
          exact absurd hll1 (labeler_no_B hllpre hpre i)

/-! ### The claims about `labeler` -/

/-- C1: whenever `labeler` assigns the label `'B-'+col` at position `i`,
the whitespace tokens of the punctuation-split column value form a
non-empty list that occurs contiguously in the punctuation-split raw log
starting at `i`. -/
theorem claim_C1 {raw : List Char} {pairs : List (String × List Char)}
    {col : String} {v : List Char} {ll : List String} {i : Nat}
    (hnd : (pairs.map Prod.fst).Nodup)
    (hmem : (col, v) ∈ pairs)
    (hrun : labeler raw pairs = some ll)
    (hi : ll[i]? = some ("B-" ++ col)) :
    pySplit (punctuation_spliter v) ≠ [] ∧
    pySlice (pySplit (punctuation_spliter raw)) i
        (i + (pySplit (punctuation_spliter v)).length)
      = pySplit (punctuation_spliter v) := by
  rw [labeler_eq] at hrun
  rcases runCols_provenance hrun i _ hi (B_ne_O col) with h1 | ⟨c, w, ind, hm, -, hne, hsl, hge, hlt, hB, hI⟩
  · exact absurd (replicate_O_at h1) (B_ne_O col)
  · rcases span_cases hB hI hge hlt hi with ⟨rfl, hs⟩ | ⟨-, hs⟩
    · obtain rfl := B_inj hs
      obtain rfl : w = v := pair_unique hnd hm hmem
      exact ⟨hne, hsl⟩
    · exact absurd hs (B_ne_I col c)

/-- C2: `labeler` produces a well-formed BIO tagging: every position holds
`'O'`, `'B-'+col` or `'I-'+col` for a parsed column `col`; every
`'I-'+col` position is immediately preceded by a `'B-'+col` or `'I-'+col`
position of the same column; and every non-`'O'` position lies inside a
span whose raw-token slice matches some parsed column's split value. -/
theorem claim_C2 {raw : List Char} {pairs : List (String × List Char)}
    {ll : List String}
    (hrun : labeler raw pairs = some ll) :
    (∀ (i : Nat) (s : String), ll[i]? = some s →
       s = "O" ∨ ∃ col, col ∈ pairs.map Prod.fst ∧
         (s = "B-" ++ col ∨ s = "I-" ++ col)) ∧
    (∀ (i : Nat) (col : String), ll[i]? = some ("I-" ++ col) →
       1 ≤ i ∧ (ll[i - 1]? = some ("B-" ++ col) ∨
                ll[i - 1]? = some ("I-" ++ col))) ∧
    (∀ (i : Nat) (s : String), ll[i]? = some s → s ≠ "O" →
       ∃ col v ind, (col, v) ∈ pairs ∧
         pySlice (pySplit (punctuation_spliter raw)) ind
             (ind + (pySplit (punctuation_spliter v)).length)
           = pySplit (punctuation_spliter v) ∧
         ind ≤ i ∧ i < ind + (pySplit (punctuation_spliter v)).length) := by
  rw [labeler_eq] at hrun
  refine ⟨?_, ?_, ?_⟩
  · intro i s hi
    by_cases hs : s = "O"
    · exact Or.inl hs
    · rcases runCols_provenance hrun i s hi hs with h1 | ⟨c, w, ind, hm, -, -, -, hge, hlt, hB, hI⟩
      · exact absurd (replicate_O_at h1) hs
      · rcases span_cases hB hI hge hlt hi with ⟨-, hs2⟩ | ⟨-, hs2⟩
        · exact Or.inr ⟨c, List.mem_map_of_mem Prod.fst hm, Or.inl hs2⟩
        · exact Or.inr ⟨c, List.mem_map_of_mem Prod.fst hm, Or.inr hs2⟩
  · intro i col hi
    rcases runCols_provenance hrun i _ hi (I_ne_O col) with h1 | ⟨c, w, ind, hm, -, -, -, hge, hlt, hB, hI⟩
    · exact absurd (replicate_O_at h1) (I_ne_O col)
    · rcases span_cases hB hI hge hlt hi with ⟨-, hs2⟩ | ⟨hgt, hs2⟩
      · exact absurd hs2.symm (B_ne_I c col)
      · obtain rfl := I_inj hs2
        refine ⟨by omega, ?_⟩
        rcases Nat.eq_or_lt_of_le (by omega : ind ≤ i - 1) with heq | hgt2
        · rw [← heq, hB]
          exact Or.inl rfl
        · rw [hI (i - 1) hgt2 (by omega)]
          exact Or.inr rfl
  · intro i s hi hs
    rcases runCols_provenance hrun i s hi hs with h1 | ⟨c, w, ind, hm, -, -, hsl, hge, hlt, -, -⟩
    · exact absurd (replicate_O_at h1) hs
    · exact ⟨c, w, ind, hm, hsl, hge, hlt⟩

/-- C3: `labeler` returns exactly one label per whitespace-split token of
the preprocessed raw log, whatever the columns contain. -/
theorem claim_C3 {raw : List Char} {pairs : List (String × List Char)}
    {ll : List String}
    (hrun : labeler raw pairs = some ll) :
    ll.length = (pySplit (punctuation_spliter raw)).length := by
  rw [labeler_eq] at hrun
  exact (runCols_length hrun).trans (List.length_replicate _ _)

/-- A final `'B-'+col` label requires a parsed column named `col` whose
value is not a skipped sentinel. -/
theorem B_mem {raw : List Char} {pairs : List (String × List Char)}
    {ll : List String} {col : String} {i : Nat}
    (hrun : labeler raw pairs = some ll)
    (hi : ll[i]? = some ("B-" ++ col)) :
    ∃ w, (col, w) ∈ pairs ∧ w ∉ skipvals := by
  rw [labeler_eq] at hrun
  rcases runCols_provenance hrun i _ hi (B_ne_O col) with h1 | ⟨c, w, ind, hm, hsk, -, -, hge, hlt, hB, hI⟩
  · exact absurd (replicate_O_at h1) (B_ne_O col)
  · rcases span_cases hB hI hge hlt hi with ⟨-, hs⟩ | ⟨-, hs⟩
    · obtain rfl := B_inj hs
      exact ⟨w, hm, hsk⟩
    · exact absurd hs (B_ne_I col c)

/-- C4: per column, at most one occurrence of the column value is labeled
(the `'B-'` head of a span sits at a unique position); labels written by
earlier columns are never overwritten; and the labeled occurrence is the
earliest one whose positions were all still `'O'` when the column was
processed. -/
theorem claim_C4 {raw : List Char} {pairs : List (String × List Char)}
    {ll : List String}
    (hnd : (pairs.map Prod.fst).Nodup)
    (hrun : labeler raw pairs = some ll) :
    (∀ (col : String) (i j : Nat), ll[i]? = some ("B-" ++ col) →
       ll[j]? = some ("B-" ++ col) → i = j) ∧
    (∀ (pre post : List (String × List Char)) (llpre : List String),
       pairs = pre ++ post → labeler raw pre = some llpre →
       ∀ (i : Nat) (s : String), llpre[i]? = some s → s ≠ "O" →
         ll[i]? = some s) ∧
    (∀ (pre : List (String × List Char)) (col : String) (v : List Char)
       (post : List (String × List Char)) (llpre : List String),
       pairs = pre ++ (col, v) :: post → labeler raw pre = some llpre →
       ∀ (i : Nat), ll[i]? = some ("B-" ++ col) →
         ∀ j, j < i →
           ¬(pySlice (pySplit (punctuation_spliter raw)) j
                 (j + (pySplit (punctuation_spliter v)).length)
               = pySplit (punctuation_spliter v) ∧
             pySlice llpre j (j + (pySplit (punctuation_spliter v)).length)
               = List.replicate (pySplit (punctuation_spliter v)).length "O")) := by
  refine ⟨?_, ?_, ?_⟩
  · intro col i j hi hj
    obtain ⟨w, hm, -⟩ := B_mem hrun hi
    obtain ⟨pre, post, rfl⟩ := List.append_of_mem hm
    obtain ⟨hpre, hpost⟩ := nodup_split hnd
    obtain ⟨llpre, hllpre, -⟩ := labeler_bind hrun
    obtain ⟨-, -, hfi⟩ := B_at_write hpre hpost hrun hllpre hi
    obtain ⟨-, -, hfj⟩ := B_at_write hpre hpost hrun hllpre hj
    rw [hfi] at hfj
    exact Option.some.inj hfj
  · intro pre post llpre hdec hpre i s hi hs
    subst hdec
    obtain ⟨mid, hmid, hrest⟩ := labeler_bind hrun
    obtain rfl : llpre = mid := by
      rw [hpre] at hmid
      exact Option.some.inj hmid
    exact runCols_preserve hrest i s hi hs
  · intro pre col v post llpre hdec hpre i hi j hj hcond
    subst hdec
    obtain ⟨hprem, hpostm⟩ := nodup_split hnd
    obtain ⟨hskip, hne, hfm⟩ := B_at_write hprem hpostm hrun hpre hi
    obtain ⟨-, -, -, -, -, hmin⟩ := firstMatch_some hfm hne
    have hfalse := hmin j hj
    obtain ⟨hslice, hlab⟩ := hcond
    have hhead := slice_head hne hslice
    have htrue : matchCond (pySplit (punctuation_spliter raw)) llpre
        (pySplit (punctuation_spliter v)) j = true := by
      rw [matchCond]
      simp only [Bool.and_eq_true, beq_iff_eq]
      exact ⟨⟨hhead, hslice⟩, hlab⟩
    rw [hfalse] at htrue
    exact absurd htrue (by simp)

/-- C9: a column whose stringified value is one of the sentinels
`'', '-', 'None', 'NaN'` contributes nothing: no `'B-'` or `'I-'` label of
that column appears, and the result equals the run with the column
removed. -/
theorem claim_C9 {raw : List Char} {pre post : List (String × List Char)}
    {col : String} {v : List Char} {ll : List String}
    (hnd : (((pre ++ (col, v) :: post)).map Prod.fst).Nodup)
    (hskip : v ∈ skipvals)
    (hrun : labeler raw (pre ++ (col, v) :: post) = some ll) :
    (∀ i : Nat, ll[i]? ≠ some ("B-" ++ col) ∧ ll[i]? ≠ some ("I-" ++ col)) ∧
    labeler raw (pre ++ post) = some ll := by
  have hmemv : (col, v) ∈ pre ++ (col, v) :: post :=
    List.mem_append_right _ (List.mem_cons_self _ _)
  have hrun2 := hrun
  rw [labeler_eq] at hrun2
  constructor
  · intro i
    constructor
    · intro hi
      obtain ⟨w, hm, hsk⟩ := B_mem hrun hi
      obtain rfl := pair_unique hnd hm hmemv
      exact hsk hskip
    · intro hi
      rcases runCols_provenance hrun2 i _ hi (I_ne_O col) with h1 | ⟨c, w, ind, hm, hsk, -, -, hge, hlt, hB, hI⟩
      · exact absurd (replicate_O_at h1) (I_ne_O col)
      · rcases span_cases hB hI hge hlt hi with ⟨-, hs⟩ | ⟨-, hs⟩
        · exact absurd hs.symm (B_ne_I c col)
        · obtain rfl := I_inj hs
          obtain rfl := pair_unique hnd hm hmemv
          exact hsk hskip
  · obtain ⟨mid, hmid, hrest⟩ := labeler_bind hrun
    rw [runCols_cons] at hrest
    have hstep : processCol (pySplit (punctuation_spliter raw)) mid (col, v)
        = some mid := by
      unfold processCol
      rw [if_pos hskip]
    rw [hstep] at hrest
    rw [labeler_eq, runCols_append]
    rw [labeler_eq] at hmid
    rw [hmid]
    exact hrest

theorem claim_C1_witness :
    pySplit (punctuation_spliter "12".toList) ≠ [] ∧
    pySlice (pySplit (punctuation_spliter "time:12 host=ab".toList)) 2
        (2 + (pySplit (punctuation_spliter "12".toList)).length)
      = pySplit (punctuation_spliter "12".toList) :=
  @claim_C1 "time:12 host=ab".toList
    [("time", "12".toList), ("host", "ab".toList)] "time" "12".toList
    ["O", "O", "B-time", "O", "O", "B-host"] 2
    (by decide) (by decide) (by decide) (by decide)

theorem claim_C2_witness :
    1 ≤ 1 ∧ ((["B-u", "I-u", "I-u", "O"] : List String)[1 - 1]?
               = some ("B-" ++ "u") ∨
             (["B-u", "I-u", "I-u", "O"] : List String)[1 - 1]?
               = some ("I-" ++ "u")) :=
  (@claim_C2 "a.b c".toList [("u", "a.b".toList)]
    ["B-u", "I-u", "I-u", "O"] (by decide)).2.1 1 "u" (by decide)

theorem claim_C3_witness :
    (["O", "O", "B-time", "O", "O", "B-host"] : List String).length
      = (pySplit (punctuation_spliter "time:12 host=ab".toList)).length :=
  @claim_C3 "time:12 host=ab".toList
    [("time", "12".toList), ("host", "ab".toList)]
    ["O", "O", "B-time", "O", "O", "B-host"] (by decide)

theorem claim_C4_witness :
    ¬(pySlice (pySplit (punctuation_spliter "12 34 12 34".toList)) 1
          (1 + (pySplit (punctuation_spliter "34".toList)).length)
        = pySplit (punctuation_spliter "34".toList) ∧
      pySlice (["B-p", "I-p", "O", "O"] : List String) 1
          (1 + (pySplit (punctuation_spliter "34".toList)).length)
        = List.replicate (pySplit (punctuation_spliter "34".toList)).length
            "O") :=
  (@claim_C4 "12 34 12 34".toList
    [("p", "12 34".toList), ("q", "34".toList)]
    ["B-p", "I-p", "O", "B-q"] (by decide) (by decide)).2.2
    [("p", "12 34".toList)] "q" "34".toList [] ["B-p", "I-p", "O", "O"]
    (by decide) (by decide) 3 (by decide) 1 (by decide)

theorem claim_C9_witness :
    labeler "time:12 host=ab".toList ([("time", "12".toList)] ++ [])
      = some ["O", "O", "B-time", "O", "O", "O"] :=
  (@claim_C9 "time:12 host=ab".toList [("time", "12".toList)] []
    "host" "-".toList ["O", "O", "B-time", "O", "O", "O"]
    (by decide) (by decide) (by decide)).2

/-! ### C10: padding -/

theorem padded_labels_length (sl : List (List String)) :
    ∀ row ∈ padded_labels sl, row.length = 512 := by
  intro row hrow
  unfold padded_labels at hrow
  obtain ⟨x, -, rfl⟩ := List.mem_map.mp hrow
  unfold pad
  rw [List.length_append, List.length_replicate, List.length_take]
  omega

/-- C10: `pad` keeps the first `len(l)` elements unchanged and appends
`width - len(l)` copies of the filler (none when `len(l) ≥ width`), so
after truncation to 512 entries every row of `padded_labels` and of
`int_labels` has length exactly 512. -/
theorem claim_C10 (l : List String) (c : String) (w : Nat)
    (sl : List (List String)) (f : String → Option Int) :
    (l.length < w → (pad l c w).take l.length = l ∧
       (pad l c w).drop l.length = List.replicate (w - l.length) c ∧
       (pad l c w).length = w) ∧
    (w ≤ l.length → pad l c w = l) ∧
    (∀ row ∈ padded_labels sl, row.length = 512) ∧
    (∀ row ∈ int_labels f sl, row.length = 512) := by
  refine ⟨?_, ?_, padded_labels_length sl, ?_⟩
  · intro h
    unfold pad
    refine ⟨List.take_left l _, List.drop_left l _, ?_⟩
    rw [List.length_append, List.length_replicate]
    omega
  · intro h
    unfold pad
    rw [Nat.sub_eq_zero_of_le h]
    simp
  · intro row hrow
    unfold int_labels at hrow
    obtain ⟨lab, hlab, rfl⟩ := List.mem_map.mp hrow
    rw [List.length_map]
    exact padded_labels_length sl lab hlab

theorem claim_C10_witness :
    (pad ["a"] "p" 3).take 1 = ["a"] ∧
    (pad ["a"] "p" 3).drop 1 = List.replicate 2 "p" ∧
    (pad ["a"] "p" 3).length = 3 :=
  (claim_C10 ["a"] "p" 3 [] (fun _ => none)).1 (by decide)

/-! ### C8: the evaluation loop -/

/-- C8: per validation example, the collected ground-truth sequence
contains neither `'X'` nor `'[PAD]'`, the collected prediction sequence
has exactly the ground truth's length, and the loop's result only depends
on the attention-mask prefix before the first zero (the `break`). -/
theorem evalCollect_zero (d : Int → Option String) (ms : List Nat)
    (ls ps : List Int) :
    evalCollect d (0 :: ms) ls ps = some ([], []) := rfl

theorem evalCollect_cons {m : Nat} (hm : m ≠ 0) (d : Int → Option String)
    (ms : List Nat) (l p : Int) (ls2 ps2 : List Int) :
    evalCollect d (m :: ms) (l :: ls2) (p :: ps2)
      = evalStep d l p (evalCollect d ms ls2 ps2) := by
  conv_lhs => rw [evalCollect]
  rw [if_neg hm]

theorem evalCollect_short {m : Nat} (hm : m ≠ 0) (d : Int → Option String)
    (ms : List Nat) (ls ps : List Int)
    (hshort : ls = [] ∨ ps = []) :
    evalCollect d (m :: ms) ls ps = none := by
  rcases hshort with rfl | rfl
  · unfold evalCollect
    rw [if_neg hm]
  · cases ls with
    | nil =>
      unfold evalCollect
      rw [if_neg hm]
    | cons l ls2 =>
      unfold evalCollect
      rw [if_neg hm]

theorem claim_C8 {d : Int → Option String} {mask : List Nat}
    {ls ps : List Int} {t1 t2 : List String}
    (h : evalCollect d mask ls ps = some (t1, t2)) :
    "X" ∉ t1 ∧ "[PAD]" ∉ t1 ∧ t1.length = t2.length ∧
    evalCollect d (mask.takeWhile (fun m => m != 0)) ls ps
      = some (t1, t2) := by
  induction mask generalizing ls ps t1 t2 with
  | nil =>
    have h2 := Option.some.inj h
    rw [Prod.mk.injEq] at h2
    obtain ⟨rfl, rfl⟩ := h2
    exact ⟨by simp, by simp, rfl, rfl⟩
  | cons m ms ih =>
    by_cases hm : m = 0
    · subst hm
      rw [evalCollect_zero] at h
      have h2 := Option.some.inj h
      rw [Prod.mk.injEq] at h2
      obtain ⟨rfl, rfl⟩ := h2
      exact ⟨by simp, by simp, rfl, rfl⟩
    · rw [List.takeWhile_cons]
      have hb : (m != 0) = true := by simpa using hm
      rw [hb]
      simp only [ite_true]
      cases ls with
      | nil => rw [evalCollect_short hm d ms _ _ (Or.inl rfl)] at h; cases h
      | cons l ls2 =>
        cases ps with
        | nil => rw [evalCollect_short hm d ms _ _ (Or.inr rfl)] at h; cases h
        | cons p ps2 =>
          rw [evalCollect_cons hm] at h
          rw [evalCollect_cons hm]
          unfold evalStep at h ⊢
          cases hd : d l with
          | none =>
            rw [hd] at h
            simp at h
          | some tl =>
            rw [hd] at h
            simp only [Option.some_bind] at h ⊢
            by_cases hX : tl ≠ "X" ∧ tl ≠ "[PAD]"
            · rw [if_pos hX] at h ⊢
              cases hdp : d p with
              | none =>
                rw [hdp] at h
                simp at h
              | some tp =>
                rw [hdp] at h
                simp only [Option.some_bind] at h ⊢
                cases hrec : evalCollect d ms ls2 ps2 with
                | none => rw [hrec] at h; cases h
                | some r =>
                  rw [hrec] at h
                  obtain ⟨r1, r2⟩ := r
                  rw [Option.map_some'] at h
                  have h2 := Option.some.inj h
                  rw [Prod.mk.injEq] at h2
                  obtain ⟨rfl, rfl⟩ := h2
                  obtain ⟨ih1, ih2, ih3, ih4⟩ := ih hrec
                  refine ⟨?_, ?_, ?_, ?_⟩
                  · simp only [List.mem_cons, not_or]
                    exact ⟨fun he => hX.1 he.symm, ih1⟩
                  · simp only [List.mem_cons, not_or]
                    exact ⟨fun he => hX.2 he.symm, ih2⟩
                  · simp only [List.length_cons, ih3]
                  · rw [ih4]
                    rfl
            · rw [if_neg hX] at h ⊢
              exact ih h

theorem claim_C8_witness :
    "X" ∉ (["B-t"] : List String) ∧ "[PAD]" ∉ (["B-t"] : List String) ∧
    (["B-t"] : List String).length = (["O"] : List String).length ∧
    evalCollect
      (fun i => if i = 0 then some "[PAD]"
                else if i = 1 then some "X"
                else if i = 2 then some "B-t" else some "O")
      (([1, 1, 1, 0, 1] : List Nat).takeWhile (fun m => m != 0))
      [2, 0, 1, 2, 2] [3, 3, 3, 3, 3]
      = some (["B-t"], ["O"]) :=
  @claim_C8
    (fun i => if i = 0 then some "[PAD]"
              else if i = 1 then some "X"
              else if i = 2 then some "B-t" else some "O")
    [1, 1, 1, 0, 1] [2, 0, 1, 2, 2] [3, 3, 3, 3, 3] ["B-t"] ["O"]
    (by decide)

/-! ### C7: subword labeling -/

theorem filter_X_replicate (c : Nat) :
    (List.replicate c ("X" : String)).filter (fun t => t != "X") = [] := by
  induction c with
  | zero => rfl
  | succ k ih =>
    rw [List.replicate_succ, List.filter_cons]
    simp only [bne_self_eq_false, ite_false, Bool.false_eq_true]
    exact ih

theorem subword_tags_spec :
    ∀ {tags : List String} {counts : List Nat},
      tags.length = counts.length → "X" ∉ tags →
      ∃ o, subword_tags tags counts = some o ∧
        o = ((tags.zip counts).map
              (fun tc => tc.1 :: List.replicate tc.2 "X")).flatten ∧
        o.length = tags.length + counts.sum ∧
        o.filter (fun t => t != "X") = tags := by
  intro tags
  induction tags with
  | nil =>
    intro counts hlen _
    cases counts with
    | nil =>
      refine ⟨[], ?_, by simp, by simp, rfl⟩
      rfl
    | cons c cs => simp at hlen
  | cons t ts ih =>
    intro counts hlen hX
    cases counts with
    | nil => simp at hlen
    | cons c cs =>
      have hlen2 : ts.length = cs.length := by
        simpa using hlen
      have hX2 : "X" ∉ ts := fun hm => hX (List.mem_cons_of_mem t hm)
      have hXt : t ≠ "X" := fun he => hX (he ▸ List.mem_cons_self t ts)
      obtain ⟨o2, ho2, ho2eq, ho2len, ho2fil⟩ := ih hlen2 hX2
      have hsome : subword_tags ts cs = some o2 := ho2
      refine ⟨(t :: List.replicate c "X") ++ o2, ?_, ?_, ?_, ?_⟩
      · unfold subword_tags at hsome ⊢
        rw [if_pos (by simp; omega)]
        rw [if_pos (by omega)] at hsome
        have ho2eq2 := Option.some.inj hsome
        rw [List.zip_cons_cons, List.map_cons, List.flatten_cons, ho2eq2]
      · rw [List.zip_cons_cons, List.map_cons, List.flatten_cons, ho2eq]
      · rw [List.length_append, ho2len]
        simp only [List.length_cons, List.length_replicate, List.sum_cons]
        omega
      · rw [List.filter_append, List.filter_cons]
        have : (t != "X") = true := by simpa using hXt
        rw [this]
        simp only [ite_true]
        rw [filter_X_replicate, ho2fil]
        rfl

/-- C7 (amended): when every log has one tag per whitespace-split word,
the tokenizer reports one subword count per word, and no original tag is
the literal string `'X'`, then `subword_labeler` returns one sequence per
log built by following each tag with that word's count of `'X'` labels;
each output's length is the tag count plus the sum of the reported
counts, and the non-`'X'` entries are exactly the original tags. -/
theorem claim_C7 {cnt : List (List Char) → List Nat}
    {log_list : List (List Char)} {label_list : List (List String)}
    (hlen : log_list.length = label_list.length)
    (htags : ∀ p ∈ log_list.zip label_list,
       (p.2 : List String).length = (pySplit p.1).length)
    (hcnt : ∀ p ∈ log_list.zip label_list,
       (cnt (pySplit p.1)).length = (pySplit p.1).length)
    (hX : ∀ p ∈ log_list.zip label_list, "X" ∉ (p.2 : List String)) :
    ∃ out, subword_labeler cnt log_list label_list = some out ∧
      out.length = log_list.length ∧
      ∀ (k : Nat) (log : List Char) (tags : List String),
        log_list[k]? = some log → label_list[k]? = some tags →
        ∃ o, out[k]? = some o ∧
          o = ((tags.zip (cnt (pySplit log))).map
                (fun tc => tc.1 :: List.replicate tc.2 "X")).flatten ∧
          o.length = tags.length + (cnt (pySplit log)).sum ∧
          o.filter (fun t => t != "X") = tags := by
  induction log_list generalizing label_list with
  | nil =>
    refine ⟨[], rfl, rfl, ?_⟩
    intro k log tags hk _
    exact absurd hk (by simp)
  | cons lg lgs ih =>
    cases label_list with
    | nil => simp at hlen
    | cons tg tgs =>
      have hmem0 : (lg, tg) ∈ (lg :: lgs).zip (tg :: tgs) :=
        List.zip_cons_cons .. ▸ List.mem_cons_self _ _
      have htail : ∀ p ∈ lgs.zip tgs, (p.2 : List String).length
          = (pySplit p.1).length := by
        intro p hp
        exact htags p (by rw [List.zip_cons_cons]; exact List.mem_cons_of_mem _ hp)
      have hcnttail : ∀ p ∈ lgs.zip tgs,
          (cnt (pySplit p.1)).length = (pySplit p.1).length := by
        intro p hp
        exact hcnt p (by rw [List.zip_cons_cons]; exact List.mem_cons_of_mem _ hp)
      have hXtail : ∀ p ∈ lgs.zip tgs, "X" ∉ (p.2 : List String) := by
        intro p hp
        exact hX p (by rw [List.zip_cons_cons]; exact List.mem_cons_of_mem _ hp)
      obtain ⟨out2, hout2, hlen2, hprops⟩ :=
        ih (by simpa using hlen) htail hcnttail hXtail
      have hlen0 : (tg : List String).length = (cnt (pySplit lg)).length := by
        rw [htags (lg, tg) hmem0, hcnt (lg, tg) hmem0]
      obtain ⟨o0, ho0, ho0eq, ho0len, ho0fil⟩ :=
        subword_tags_spec hlen0 (hX (lg, tg) hmem0)
      refine ⟨o0 :: out2, ?_, by simpa using hlen2, ?_⟩
      · unfold subword_labeler at hout2 ⊢
        rw [List.zip_cons_cons, List.mapM_cons, ho0, hout2]
        rfl
      · intro k log tags hk htg
        cases k with
        | zero =>
          rw [List.getElem?_cons_zero] at hk htg
          obtain rfl := Option.some.inj hk
          obtain rfl := Option.some.inj htg
          exact ⟨o0, List.getElem?_cons_zero, ho0eq, ho0len, ho0fil⟩
        | succ k2 =>
          rw [List.getElem?_cons_succ] at hk htg
          rw [List.getElem?_cons_succ]
          exact hprops k2 log tags hk htg

/-- The claim as frozen fails: with the single tag `'X'` (a legitimate
per-word tag list for the one-word log `"a"`, the tokenizer reporting two
subword pieces), the output is `['X','X','X']`, whose subsequence of
non-`'X'` entries is empty rather than the original tag list `['X']`. -/
theorem claim_C7_counterexample :
    subword_labeler (fun _ => [2]) ["a".toList] [["X"]]
      = some [["X", "X", "X"]] ∧
    (["X", "X", "X"] : List String).filter (fun t => t != "X") ≠ ["X"] := by
  constructor
  · rfl
  · decide

theorem claim_C7_witness :
    ∃ out, subword_labeler (fun ws : List (List Char) => ws.map (fun _ => (1 : Nat)))
        ["a b".toList] [["B-u", "I-u"]] = some out ∧
      out.length = (["a b".toList] : List (List Char)).length ∧
      ∀ (k : Nat) (log : List Char) (tags : List String),
        (["a b".toList] : List (List Char))[k]? = some log →
        ([["B-u", "I-u"]] : List (List String))[k]? = some tags →
        ∃ o, out[k]? = some o ∧
          o = ((tags.zip ((fun ws : List (List Char) => ws.map (fun _ => (1 : Nat))) (pySplit log))).map
                (fun tc => tc.1 :: List.replicate tc.2 "X")).flatten ∧
          o.length = tags.length
            + ((fun ws : List (List Char) => ws.map (fun _ => (1 : Nat))) (pySplit log)).sum ∧
          o.filter (fun t => t != "X") = tags :=
  @claim_C7 (fun ws : List (List Char) => ws.map (fun _ => (1 : Nat))) ["a b".toList]
    [["B-u", "I-u"]] (by decide) (by decide) (by decide) (by decide)

/-! ### C6: the label dictionaries -/

theorem assoc_unique {κ ν : Type} {kvs : List (κ × ν)}
    (hnd : (kvs.map Prod.fst).Nodup) {k : κ} {a b : ν}
    (ha : (k, a) ∈ kvs) (hb : (k, b) ∈ kvs) : a = b := by
  induction kvs with
  | nil => cases ha
  | cons p ps ih =>
    rw [List.map_cons, List.nodup_cons] at hnd
    rcases List.mem_cons.mp ha with rfl | ha2
    · rcases List.mem_cons.mp hb with h | hb2
      · exact (congrArg Prod.snd h).symm
      · exact absurd (List.mem_map_of_mem Prod.fst hb2) hnd.1
    · rcases List.mem_cons.mp hb with rfl | hb2
      · exact absurd (List.mem_map_of_mem Prod.fst ha2) hnd.1
      · exact ih hnd.2 ha2 hb2

theorem find?_reverse_nodup {κ ν : Type} [BEq κ] [LawfulBEq κ]
    {kvs : List (κ × ν)} (hnd : (kvs.map Prod.fst).Nodup)
    {k : κ} {v : ν} (hm : (k, v) ∈ kvs) :
    kvs.reverse.find? (fun p => p.1 == k) = some (k, v) := by
  induction kvs with
  | nil => cases hm
  | cons p ps ih =>
    rw [List.map_cons, List.nodup_cons] at hnd
    rw [List.reverse_cons, List.find?_append]
    rcases List.mem_cons.mp hm with rfl | hm2
    · have hnone : ps.reverse.find? (fun q => q.1 == k) = none := by
        apply List.find?_eq_none.mpr
        intro q hq he
        have hqk : q.1 = k := by simpa using he
        have hmem : q.1 ∈ ps.map Prod.fst :=
          List.mem_map_of_mem Prod.fst (List.mem_reverse.mp hq)
        rw [hqk] at hmem
        exact hnd.1 hmem
      rw [hnone, List.find?_cons_of_pos _ (by simp)]
      rfl
    · rw [ih hnd.2 hm2]
      rfl

theorem pyLookup_nodup {κ ν : Type} [BEq κ] [LawfulBEq κ]
    {kvs : List (κ × ν)} (hnd : (kvs.map Prod.fst).Nodup)
    {k : κ} {v : ν} (hm : (k, v) ∈ kvs) :
    pyLookup kvs k = some v := by
  unfold pyLookup
  rw [find?_reverse_nodup hnd hm]
  rfl

theorem pyLookup_mem {κ ν : Type} [BEq κ] [LawfulBEq κ]
    {kvs : List (κ × ν)} {k : κ} {v : ν}
    (h : pyLookup kvs k = some v) : (k, v) ∈ kvs := by
  unfold pyLookup at h
  cases hf : kvs.reverse.find? (fun p => p.1 == k) with
  | none => rw [hf] at h; cases h
  | some q =>
    rw [hf] at h
    have hq := List.mem_reverse.mp (List.mem_of_find?_eq_some hf)
    have hqk : q.1 = k := by simpa using List.find?_some hf
    have hqv : q.2 = v := Option.some.inj h
    rw [← hqk, ← hqv]
    exact hq

theorem pyKeys_nodup {κ ν : Type} [BEq κ] [LawfulBEq κ] :
    ∀ {kvs : List (κ × ν)}, (kvs.map Prod.fst).Nodup →
      pyKeys kvs = kvs.map Prod.fst := by
  intro kvs
  induction kvs with
  | nil => intro _; rfl
  | cons p ps ih =>
    intro hnd
    rw [List.map_cons, List.nodup_cons] at hnd
    show p.1 :: (pyKeys ps).filter (fun k => !(k == p.1)) = p.1 :: ps.map Prod.fst
    rw [ih hnd.2]
    congr 1
    rw [List.filter_eq_self]
    intro a ha
    have hne : a ≠ p.1 := fun he => hnd.1 (he ▸ ha)
    simpa using hne

theorem pyEnumFrom_map_snd {α : Type} :
    ∀ (l : List α) (i : Nat), (pyEnumFrom i l).map Prod.snd = l := by
  intro l
  induction l with
  | nil => intro i; rfl
  | cons a as ih =>
    intro i
    show (i, a).2 :: (pyEnumFrom (i + 1) as).map Prod.snd = a :: as
    rw [ih]

theorem pyEnumFrom_map_fst {α : Type} :
    ∀ (l : List α) (i : Nat),
      (pyEnumFrom i l).map Prod.fst = List.range' i l.length := by
  intro l
  induction l with
  | nil => intro i; rfl
  | cons a as ih =>
    intro i
    show i :: (pyEnumFrom (i + 1) as).map Prod.fst = List.range' i (as.length + 1)
    rw [ih, List.range'_succ]

theorem pyEnumFrom_mem_ge {α : Type} :
    ∀ {l : List α} {i k : Nat} {a : α}, (k, a) ∈ pyEnumFrom i l → i ≤ k := by
  intro l
  induction l with
  | nil => intro i k a h; cases h
  | cons b bs ih =>
    intro i k a h
    rcases List.mem_cons.mp h with he | hm
    · obtain rfl : i = k := (congrArg Prod.fst he).symm
      exact le_refl i
    · exact le_trans (Nat.le_succ i) (ih hm)

theorem pyEnumFrom_mem_of_mem {α : Type} :
    ∀ {l : List α} {a : α}, a ∈ l → ∀ i : Nat, ∃ k, (k, a) ∈ pyEnumFrom i l := by
  intro l
  induction l with
  | nil => intro a h; cases h
  | cons b bs ih =>
    intro a h i
    rcases List.mem_cons.mp h with rfl | hm
    · exact ⟨i, List.mem_cons_self _ _⟩
    · obtain ⟨k, hk⟩ := ih hm (i + 1)
      exact ⟨k, List.mem_cons_of_mem _ hk⟩

theorem label2id_entries_eq (lv : List String) :
    label2id_entries lv =
      ("[PAD]", (0 : Int)) ::
        ((pyEnumFrom 1 lv).map (fun p => (p.2, (p.1 : Int)))
          ++ [("X", -100)]) := rfl

theorem label2id_keys (lv : List String) :
    (label2id_entries lv).map Prod.fst = "[PAD]" :: (lv ++ ["X"]) := by
  rw [label2id_entries_eq, List.map_cons, List.map_append, List.map_map]
  show "[PAD]" :: ((pyEnumFrom 1 lv).map Prod.snd ++ ["X"]) = _
  rw [pyEnumFrom_map_snd]

theorem label2id_keys_nodup {lv : List String} (hnd : lv.Nodup)
    (hP : "[PAD]" ∉ lv) (hX : "X" ∉ lv) :
    ((label2id_entries lv).map Prod.fst).Nodup := by
  rw [label2id_keys, List.nodup_cons, List.nodup_append]
  refine ⟨?_, hnd, List.nodup_singleton _, ?_⟩
  · intro hmem
    rcases List.mem_append.mp hmem with h | h
    · exact hP h
    · rw [List.mem_singleton] at h
      exact absurd h (by decide)
  · intro a ha hb
    rw [List.mem_singleton] at hb
    exact hX (hb ▸ ha)

theorem mem_label2id_entries_of_enum {lv : List String} {k : Nat} {t : String}
    (h : (k, t) ∈ pyEnumFrom 1 lv) :
    (t, (k : Int)) ∈ label2id_entries lv := by
  rw [label2id_entries_eq]
  exact List.mem_cons_of_mem _
    (List.mem_append_left _ (List.mem_map_of_mem _ h))

theorem label2id_PAD {lv : List String} (hnd : lv.Nodup)
    (hP : "[PAD]" ∉ lv) (hX : "X" ∉ lv) :
    label2id lv "[PAD]" = some 0 :=
  pyLookup_nodup (label2id_keys_nodup hnd hP hX)
    (by rw [label2id_entries_eq]; exact List.mem_cons_self _ _)

theorem label2id_X {lv : List String} (hnd : lv.Nodup)
    (hP : "[PAD]" ∉ lv) (hX : "X" ∉ lv) :
    label2id lv "X" = some (-100) :=
  pyLookup_nodup (label2id_keys_nodup hnd hP hX)
    (by
      rw [label2id_entries_eq]
      exact List.mem_cons_of_mem _
        (List.mem_append_right _ (List.mem_singleton.mpr rfl)))

theorem label2id_of_enum {lv : List String} (hnd : lv.Nodup)
    (hP : "[PAD]" ∉ lv) (hX : "X" ∉ lv) {k : Nat} {t : String}
    (h : (k, t) ∈ pyEnumFrom 1 lv) :
    label2id lv t = some (k : Int) :=
  pyLookup_nodup (label2id_keys_nodup hnd hP hX)
    (mem_label2id_entries_of_enum h)

theorem filterMap_enum_aux :
    ∀ (l : List String) (start : Nat) (f : String → Option (Int × String)),
      (∀ k t, (k, t) ∈ pyEnumFrom start l → f t = some ((k : Int), t)) →
      l.filterMap f = (pyEnumFrom start l).map (fun p => ((p.1 : Int), p.2)) := by
  intro l
  induction l with
  | nil => intro start f _; rfl
  | cons a as ih =>
    intro start f hf
    have hhead : f a = some ((start : Int), a) :=
      hf start a (List.mem_cons_self _ _)
    show (a :: as).filterMap f
      = ((start, a) :: pyEnumFrom (start + 1) as).map
          (fun p => ((p.1 : Int), p.2))
    rw [List.map_cons, List.filterMap_cons_some hhead]
    rw [ih (start + 1) f (fun k t hm => hf k t (List.mem_cons_of_mem _ hm))]

theorem id2label_entries_eq {lv : List String} (hnd : lv.Nodup)
    (hP : "[PAD]" ∉ lv) (hX : "X" ∉ lv) :
    id2label_entries lv =
      ((0 : Int), "[PAD]") ::
        ((pyEnumFrom 1 lv).map (fun p => ((p.1 : Int), p.2))
          ++ [((-100 : Int), "X")]) := by
  unfold id2label_entries
  rw [pyKeys_nodup (label2id_keys_nodup hnd hP hX), label2id_keys]
  rw [List.filterMap_cons_some
    (by rw [label2id_PAD hnd hP hX]; rfl)]
  rw [List.filterMap_append]
  rw [filterMap_enum_aux lv 1 _
    (fun k t hm => by rw [label2id_of_enum hnd hP hX hm]; rfl)]
  rw [List.filterMap_cons_some
    (by rw [label2id_X hnd hP hX]; rfl)]
  rfl

theorem id2label_keys_nodup {lv : List String} (hnd : lv.Nodup)
    (hP : "[PAD]" ∉ lv) (hX : "X" ∉ lv) :
    ((id2label_entries lv).map Prod.fst).Nodup := by
  rw [id2label_entries_eq hnd hP hX]
  rw [List.map_cons, List.map_append, List.map_map]
  have hmid : (pyEnumFrom 1 lv).map
      (Prod.fst ∘ fun p : Nat × String => ((p.1 : Int), p.2))
      = ((pyEnumFrom 1 lv).map Prod.fst).map (fun n : Nat => (n : Int)) := by
    rw [List.map_map]
    rfl
  rw [hmid, pyEnumFrom_map_fst]
  simp only [List.map_cons, List.map_nil]
  have hge : ∀ x ∈ (List.range' 1 lv.length).map (fun n : Nat => (n : Int)),
      1 ≤ x := by
    intro x hx
    obtain ⟨n, hn, rfl⟩ := List.mem_map.mp hx
    have := (List.mem_range'_1.mp hn).1
    exact_mod_cast this
  rw [List.nodup_cons, List.nodup_append]
  refine ⟨?_, ?_, List.nodup_singleton _, ?_⟩
  · intro hmem
    rcases List.mem_append.mp hmem with h | h
    · have := hge _ h
      omega
    · rw [List.mem_singleton] at h
      exact absurd h (by decide)
  · exact (List.nodup_range' ..).map
      (fun a b hab => by exact_mod_cast hab)
  · intro a ha hb
    rw [List.mem_singleton] at hb
    have := hge a ha
    omega

/-- C6: `label2id` maps `'[PAD]'` to 0, every distinct training label to a
distinct non-negative id, `'X'` to -100, and `id2label` inverts it on
every key.  `lv` is `list(set(...))` of the training labels (a
duplicate-free enumeration of them, in an arbitrary order); the labels
produced by `labeler` never include `'[PAD]'` or `'X'`. -/
theorem claim_C6 {labels : List (List String)} {lv : List String}
    (hset : ∀ x, x ∈ lv ↔ x ∈ labels.flatten)
    (hnd : lv.Nodup) (hP : "[PAD]" ∉ lv) (hX : "X" ∉ lv) :
    label2id lv "[PAD]" = some 0 ∧
    (∀ t, t ∈ labels.flatten → ∃ i : Int, label2id lv t = some i ∧ 0 ≤ i) ∧
    (∀ t u, t ∈ labels.flatten → u ∈ labels.flatten → t ≠ u →
       label2id lv t ≠ label2id lv u) ∧
    label2id lv "X" = some (-100) ∧
    (∀ (t : String) (i : Int), label2id lv t = some i →
       id2label lv i = some t) := by
  have hrt : ∀ (t : String) (i : Int), label2id lv t = some i →
      id2label lv i = some t := by
    intro t i h
    have hmem : (t, i) ∈ label2id_entries lv := pyLookup_mem h
    have hkeys : t ∈ (label2id_entries lv).map Prod.fst :=
      List.mem_map_of_mem Prod.fst hmem
    have hmem2 : (i, t) ∈ id2label_entries lv := by
      unfold id2label_entries
      rw [pyKeys_nodup (label2id_keys_nodup hnd hP hX)]
      apply List.mem_filterMap.mpr
      refine ⟨t, hkeys, ?_⟩
      show (label2id lv t).map (fun j => (j, t)) = some (i, t)
      rw [h]
      rfl
    exact pyLookup_nodup (id2label_keys_nodup hnd hP hX) hmem2
  refine ⟨label2id_PAD hnd hP hX, ?_, ?_, label2id_X hnd hP hX, hrt⟩
  · intro t ht
    obtain ⟨k, hk⟩ := pyEnumFrom_mem_of_mem ((hset t).mpr ht) 1
    exact ⟨(k : Int), label2id_of_enum hnd hP hX hk,
      by exact_mod_cast Nat.zero_le k⟩
  · intro t u ht hu hne he
    obtain ⟨k, hk⟩ := pyEnumFrom_mem_of_mem ((hset t).mpr ht) 1
    have h1 : label2id lv t = some (k : Int) :=
      label2id_of_enum hnd hP hX hk
    have h2 : label2id lv u = some (k : Int) := by
      rw [← he]
      exact h1
    have e1 := hrt t _ h1
    have e2 := hrt u _ h2
    rw [e1] at e2
    exact hne (Option.some.inj e2)

theorem claim_C6_witness :
    label2id ["O", "B-u"] "[PAD]" = some 0 ∧
    (∀ t, t ∈ ([["O", "B-u"], ["O"]] : List (List String)).flatten →
       ∃ i : Int, label2id ["O", "B-u"] t = some i ∧ 0 ≤ i) ∧
    (∀ t u, t ∈ ([["O", "B-u"], ["O"]] : List (List String)).flatten →
       u ∈ ([["O", "B-u"], ["O"]] : List (List String)).flatten → t ≠ u →
       label2id ["O", "B-u"] t ≠ label2id ["O", "B-u"] u) ∧
    label2id ["O", "B-u"] "X" = some (-100) ∧
    (∀ (t : String) (i : Int), label2id ["O", "B-u"] t = some i →
       id2label ["O", "B-u"] i = some t) :=
  @claim_C6 [["O", "B-u"], ["O"]] ["O", "B-u"]
    (fun x => by constructor
                 · intro h
                   rcases (by simpa using h : x = "O" ∨ x = "B-u") with rfl | rfl
                     <;> simp
                 · intro h
                   rcases (by simpa using h : x = "O" ∨ x = "B-u" ∨ x = "O")
                       with rfl | rfl | rfl
                     <;> simp)
    (by decide) (by decide) (by decide)

/-! ### C5: shape of the punctuation-split text -/

/-- Every character satisfying `P` has whitespace (or a text boundary) on
both sides. -/
def SpacedP (P : Char → Prop) (l : List Char) : Prop :=
  l.Chain' (fun a b =>
    (P a → b.isWhitespace = true) ∧ (P b → a.isWhitespace = true))

theorem spacedP_mono (P Q : Char → Prop) (hPQ : ∀ x, P x → Q x)
    {l : List Char} (h : SpacedP Q l) : SpacedP P l :=
  List.Chain'.imp
    (fun a b hab => ⟨fun ha => hab.1 (hPQ a ha), fun hb => hab.2 (hPQ b hb)⟩) h

theorem spacedP_empty (l : List Char) : SpacedP (fun _ => False) l := by
  induction l with
  | nil => exact List.chain'_nil
  | cons a t ih =>
    exact List.chain'_cons'.mpr
      ⟨fun b _ => ⟨fun h => h.elim, fun h => h.elim⟩, ih⟩

theorem replaceChar_head? (c b : Char) (t : List Char) :
    (replaceChar (b :: t) c).head? = some (if b = c then ' ' else b) := by
  unfold replaceChar
  rw [List.flatMap_cons]
  by_cases hb : b = c
  · rw [if_pos hb, if_pos hb]
    rfl
  · rw [if_neg hb, if_neg hb]
    rfl

theorem spacedP_replaceChar (P : Char → Prop)
    (hP : ∀ x, P x → x.isWhitespace = false) (c : Char)
    (hc : c.isWhitespace = false) :
    ∀ {l : List Char}, SpacedP P l →
      SpacedP (fun x => x = c ∨ P x) (replaceChar l c) := by
  have hcsp : ¬(' ' = c ∨ P ' ') := by
    rintro (he | hp)
    · rw [← he] at hc
      exact absurd hc (by decide)
    · exact absurd (hP ' ' hp) (by decide)
  intro l
  induction l with
  | nil => intro _; exact List.chain'_nil
  | cons a t ih =>
    intro h
    obtain ⟨hlink, htail⟩ := List.chain'_cons'.mp h
    have hrc : replaceChar (a :: t) c
        = (if a = c then [' ', c, ' '] else [a]) ++ replaceChar t c := by
      unfold replaceChar
      rw [List.flatMap_cons]
    show List.Chain' _ (replaceChar (a :: t) c)
    rw [hrc]
    apply List.chain'_append.mpr
    refine ⟨?_, ih htail, ?_⟩
    · -- the block produced for `a` is internally spaced
      by_cases ha : a = c
      · rw [if_pos ha]
        apply List.chain'_cons.mpr
        refine ⟨⟨fun hsp => absurd hsp hcsp, fun _ => by decide⟩, ?_⟩
        apply List.chain'_cons.mpr
        exact ⟨⟨fun _ => by decide, fun hsp => absurd hsp hcsp⟩,
          List.chain'_singleton _⟩
      · rw [if_neg ha]
        exact List.chain'_singleton _
    · -- the junction between the block for `a` and the rest
      intro x hx y hy
      cases t with
      | nil => exact absurd hy (by simp [replaceChar])
      | cons b t2 =>
        rw [replaceChar_head? c b t2] at hy
        rw [Option.mem_def] at hy
        obtain rfl := Option.some.inj hy
        have hxval : x = (if a = c then ' ' else a) := by
          by_cases ha : a = c
          · rw [if_pos ha] at hx ⊢
            rw [Option.mem_def] at hx
            have h2 : some ' ' = some x := hx
            exact (Option.some.inj h2).symm
          · rw [if_neg ha] at hx ⊢
            rw [Option.mem_def] at hx
            have h2 : some a = some x := hx
            exact (Option.some.inj h2).symm
        by_cases ha : a = c
        · rw [if_pos ha] at hxval
          subst hxval
          by_cases hb : b = c
          · rw [if_pos hb]
            exact ⟨fun hsp => absurd hsp hcsp, fun _ => by decide⟩
          · rw [if_neg hb]
            refine ⟨fun hsp => absurd hsp hcsp, fun _ => by decide⟩
        · rw [if_neg ha] at hxval
          subst hxval
          by_cases hb : b = c
          · rw [if_pos hb]
            refine ⟨fun _ => by decide, fun hsp => absurd hsp hcsp⟩
          · rw [if_neg hb]
            have hab := hlink b (by rw [List.head?_cons]; rfl)
            refine ⟨?_, ?_⟩
            · rintro (rfl | hp)
              · exact absurd rfl ha
              · exact hab.1 hp
            · rintro (rfl | hp)
              · exact absurd rfl hb
              · exact hab.2 hp

theorem spacedP_foldl :
    ∀ (cs : List Char), (∀ x ∈ cs, x.isWhitespace = false) →
      ∀ (P : Char → Prop), (∀ x, P x → x.isWhitespace = false) →
      ∀ {l : List Char}, SpacedP P l →
        SpacedP (fun x => x ∈ cs ∨ P x) (cs.foldl replaceChar l) := by
  intro cs
  induction cs with
  | nil =>
    intro _ P _ l h
    exact spacedP_mono _ P (fun x hx => hx.elim (fun hm => absurd hm
      (List.not_mem_nil x)) id) h
  | cons c cs2 ih =>
    intro hcs P hP l h
    have hstep := spacedP_replaceChar P hP c
      (hcs c (List.mem_cons_self _ _)) h
    have hP2 : ∀ x, (x = c ∨ P x) → x.isWhitespace = false := by
      rintro x (rfl | hx)
      · exact hcs x (List.mem_cons_self _ _)
      · exact hP x hx
    have hrest := ih (fun x hx => hcs x (List.mem_cons_of_mem _ hx))
      (fun x => x = c ∨ P x) hP2 hstep
    apply spacedP_mono _ _ ?_ hrest
    rintro x (hm | hx)
    · rcases List.mem_cons.mp hm with rfl | hm2
      · exact Or.inr (Or.inl rfl)
      · exact Or.inl hm2
    · exact Or.inr (Or.inr hx)

theorem spacedP_infix (P : Char → Prop) {l t : List Char}
    (h : SpacedP P l) (hinf : t <:+: l) : SpacedP P t :=
  List.Chain'.infix h hinf

theorem spacedP_get (P : Char → Prop) {t : List Char} (h : SpacedP P t)
    (i : Nat) (hi : i + 1 < t.length) :
    (P (t.get ⟨i, by omega⟩) → (t.get ⟨i + 1, hi⟩).isWhitespace = true) ∧
    (P (t.get ⟨i + 1, hi⟩) → (t.get ⟨i, by omega⟩).isWhitespace = true) :=
  (List.chain'_iff_get.mp h) i (by omega)

attribute [irreducible] SpacedP

theorem punct_nonws : ∀ x ∈ string.punctuation, x.isWhitespace = false := by
  decide

theorem punct_spaced (s : List Char) :
    SpacedP (fun x => x ∈ string.punctuation) (punctuation_spliter s) := by
  have h := spacedP_foldl string.punctuation punct_nonws
    (fun _ => False) (fun x hx => hx.elim) (spacedP_empty s)
  exact spacedP_mono _ _ (fun x hx => Or.inl hx) h

theorem infix_of_prefix {l1 l2 : List Char} (h : l1 <+: l2) : l1 <:+: l2 := by
  obtain ⟨r, hr⟩ := h
  exact ⟨[], r, by simpa using hr⟩

theorem infix_cons_of_infix {l1 l2 : List Char} (c : Char)
    (h : l1 <:+: l2) : l1 <:+: c :: l2 := by
  obtain ⟨s, e, he⟩ := h
  refine ⟨c :: s, e, ?_⟩
  rw [← he]
  rfl

theorem splitP_ne_nil : ∀ l : List Char, splitP l ≠ [] := by
  intro l
  cases l with
  | nil => simp [splitP]
  | cons c cs =>
    simp only [splitP]
    by_cases hw : c.isWhitespace = true
    · rw [if_pos hw]
      simp
    · rw [if_neg hw]
      cases h : splitP cs with
      | nil => simp
      | cons t ts => simp

/-- The first chunk of `splitP` is a prefix of the text, the rest are
infixes. -/
theorem splitP_struct : ∀ l : List Char,
    ∃ h ts, splitP l = h :: ts ∧ h <+: l ∧ ∀ t ∈ ts, t <:+: l := by
  intro l
  induction l with
  | nil =>
    exact ⟨[], [], rfl, List.nil_prefix,
      fun t ht => absurd ht (List.not_mem_nil t)⟩
  | cons c cs ih =>
    obtain ⟨h0, ts0, hsp, hpre, hts⟩ := ih
    by_cases hw : c.isWhitespace = true
    · refine ⟨[], splitP cs, ?_, List.nil_prefix, ?_⟩
      · simp only [splitP]
        rw [if_pos hw]
      · intro t ht
        have hcs : t <:+: cs := by
          rw [hsp] at ht
          rcases List.mem_cons.mp ht with rfl | h2
          · exact infix_of_prefix hpre
          · exact hts t h2
        exact infix_cons_of_infix c hcs
    · refine ⟨c :: h0, ts0, ?_, ?_, ?_⟩
      · simp only [splitP]
        rw [if_neg hw, hsp]
      · obtain ⟨r, hr⟩ := hpre
        exact ⟨r, by rw [List.cons_append, hr]⟩
      · intro t ht
        exact infix_cons_of_infix c (hts t ht)

theorem splitP_wsfree : ∀ (l t : List Char), t ∈ splitP l →
    ∀ x ∈ t, x.isWhitespace = false := by
  intro l
  induction l with
  | nil =>
    intro t ht x hx
    rw [show splitP [] = [[]] from rfl] at ht
    rcases List.mem_singleton.mp ht with rfl
    cases hx
  | cons c cs ih =>
    intro t ht x hx
    simp only [splitP] at ht
    by_cases hw : c.isWhitespace = true
    · rw [if_pos hw] at ht
      rcases List.mem_cons.mp ht with rfl | h2
      · cases hx
      · exact ih t h2 x hx
    · rw [if_neg hw] at ht
      cases hsp : splitP cs with
      | nil => exact absurd hsp (splitP_ne_nil cs)
      | cons t0 ts0 =>
        rw [hsp] at ht
        rcases List.mem_cons.mp ht with rfl | h2
        · rcases List.mem_cons.mp hx with rfl | hx2
          · simpa using hw
          · exact ih t0 (by rw [hsp]; exact List.mem_cons_self _ _) x hx2
        · exact ih t (by rw [hsp]; exact List.mem_cons_of_mem _ h2) x hx

theorem mem_pySplit {l t : List Char} (h : t ∈ pySplit l) :
    t ∈ splitP l ∧ t ≠ [] := by
  unfold pySplit at h
  have h2 := List.mem_filter.mp h
  refine ⟨h2.1, ?_⟩
  have h3 := h2.2
  simpa using h3

theorem replaceChar_filter (c : Char) (hc : c.isWhitespace = false) :
    ∀ l : List Char, (replaceChar l c).filter (fun x => !x.isWhitespace)
      = l.filter (fun x => !x.isWhitespace) := by
  intro l
  induction l with
  | nil => rfl
  | cons a t ih =>
    have hrc : replaceChar (a :: t) c
        = (if a = c then [' ', c, ' '] else [a]) ++ replaceChar t c := by
      unfold replaceChar
      rw [List.flatMap_cons]
    rw [hrc, List.filter_append, ih]
    have hsp : ((' ' : Char).isWhitespace) = true := by decide
    by_cases ha : a = c
    · subst ha
      rw [if_pos rfl]
      simp [List.filter_cons, hsp, hc]
    · rw [if_neg ha]
      cases hwa : a.isWhitespace with
      | false => simp [List.filter_cons, hwa]
      | true => simp [List.filter_cons, hwa]

theorem punctuation_spliter_filter_aux :
    ∀ (cs : List Char), (∀ x ∈ cs, x.isWhitespace = false) →
      ∀ l : List Char,
        (cs.foldl replaceChar l).filter (fun x => !x.isWhitespace)
          = l.filter (fun x => !x.isWhitespace) := by
  intro cs
  induction cs with
  | nil => intro _ l; rfl
  | cons c cs2 ih =>
    intro hcs l
    rw [List.foldl_cons]
    rw [ih (fun x hx => hcs x (List.mem_cons_of_mem _ hx)) (replaceChar l c)]
    exact replaceChar_filter c (hcs c (List.mem_cons_self _ _)) l

theorem punctuation_spliter_filter (s : List Char) :
    (punctuation_spliter s).filter (fun x => !x.isWhitespace)
      = s.filter (fun x => !x.isWhitespace) :=
  punctuation_spliter_filter_aux string.punctuation punct_nonws s

/-- C5: every whitespace token of the punctuation-split text is either a
single punctuation character or free of punctuation characters, and the
splitting only inserts spaces: the non-whitespace characters are
preserved in order. -/
theorem claim_C5 (s : List Char) :
    (∀ t, t ∈ pySplit (punctuation_spliter s) →
      (∃ c, c ∈ string.punctuation ∧ t = [c]) ∨
      (∀ x, x ∈ t → x ∉ string.punctuation)) ∧
    (punctuation_spliter s).filter (fun x => !x.isWhitespace)
      = s.filter (fun x => !x.isWhitespace) := by
  refine ⟨?_, punctuation_spliter_filter s⟩
  intro t ht
  by_cases hex : ∃ x, x ∈ t ∧ x ∈ string.punctuation
  · left
    obtain ⟨x, hxt, hxp⟩ := hex
    refine ⟨x, hxp, ?_⟩
    obtain ⟨hmem0, hne⟩ := mem_pySplit ht
    obtain ⟨h0, ts0, hsp, hpre, hts⟩ := splitP_struct (punctuation_spliter s)
    have hinf : t <:+: punctuation_spliter s := by
      have hmem := hmem0
      rw [hsp] at hmem
      rcases List.mem_cons.mp hmem with rfl | h2
      · exact infix_of_prefix hpre
      · exact hts t h2
    have hch : SpacedP (fun y => y ∈ string.punctuation) t :=
      spacedP_infix _ (punct_spaced s) hinf
    have hwsfree : ∀ y ∈ t, y.isWhitespace = false :=
      splitP_wsfree _ t hmem0
    obtain ⟨k, hk, hkx⟩ := List.getElem_of_mem hxt
    have hlen1 : t.length = 1 := by
      by_contra hlen
      have hpos : 0 < t.length := List.length_pos.mpr hne
      have hlen2 : 2 ≤ t.length := by omega
      rcases Nat.lt_or_ge (k + 1) t.length with h1 | h1
      · have hadj := spacedP_get _ hch k h1
        have hget1 : t.get ⟨k, by omega⟩ = x := hkx
        have hws := hadj.1 (by rw [hget1]; exact hxp)
        have hmemy : t.get ⟨k + 1, h1⟩ ∈ t := List.get_mem ..
        rw [hwsfree _ hmemy] at hws
        cases hws
      · have hk1 : 1 ≤ k := by omega
        have hi2 : (k - 1) + 1 < t.length := by omega
        have hadj := spacedP_get _ hch (k - 1) hi2
        have hget1 : t.get ⟨(k - 1) + 1, hi2⟩ = x := by
          have he : (k - 1) + 1 = k := by omega
          rw [List.get_eq_getElem]
          simp only [he]
          exact hkx
        have hws := hadj.2 (by rw [hget1]; exact hxp)
        have hmemy : t.get ⟨k - 1, by omega⟩ ∈ t := List.get_mem ..
        rw [hwsfree _ hmemy] at hws
        cases hws
    obtain ⟨a, rfl⟩ := List.length_eq_one.mp hlen1
    rcases List.mem_singleton.mp hxt with rfl
    rfl
  · right
    intro y hy hyp
    exact hex ⟨y, hy, hyp⟩

theorem claim_C5_witness :
    ((∃ c, c ∈ string.punctuation ∧ (['.'] : List Char) = [c]) ∨
      (∀ x, x ∈ (['.'] : List Char) → x ∉ string.punctuation)) ∧
    (punctuation_spliter "a.b".toList).filter (fun x => !x.isWhitespace)
      = "a.b".toList.filter (fun x => !x.isWhitespace) :=
  ⟨(claim_C5 "a.b".toList).1 ['.'] (by decide), (claim_C5 "a.b".toList).2⟩

end Cybert
